import Mathlib

/-!
Verification of the qtrc-extract resource extractor.

This file gives a shallow embedding, in Lean 4, of the Rust sources of the
qtrc-extract repository (src/name.rs, src/tree.rs, src/executable.rs,
src/main.rs), and settles a list of claims about them.

Modelling conventions used throughout:
* Machine bytes are `Fin 256`; byte arrays are `List Byte`.
* `usize`/`u32` arithmetic that can wrap is taken modulo the word size
  explicitly (release-profile wrapping semantics); `W64 = 2^64`.
* Rust code that can panic (slice indexing out of bounds, the rangemap
  crate's `RangeSet::insert` on an empty range, explicit `unwrap`s) is
  modelled with an explicit failure value (`none`, `.panic`, ...): a panic
  aborts the computation and yields no ordinary return value.
* Recursive procedures of the source whose termination is not structural
  (the directory-tree walks) are modelled with an explicit fuel parameter;
  a fuel bound that is proved (or, for procedures that genuinely can
  diverge, argued) sufficient is baked into a wrapper definition carrying
  the source's name.
-/

namespace QtrcExtract

/-- A machine byte. -/
abbrev Byte := Fin 256

/-- The usize word modulus, 2^64. -/
def W64 : ℕ := 18446744073709551616

/-- Wrapping usize subtraction `a - b` (two's complement wrap for `a < W64`). -/
def wsub64 (a b : ℕ) : ℕ := (W64 + a - b % W64) % W64

/-- Big-endian 16-bit read at byte index `i` (as in `u16::from_be_bytes`). -/
def be16 (bytes : List Byte) (i : ℕ) : ℕ :=
  256 * (bytes.getD i 0).val + (bytes.getD (i + 1) 0).val

/-- Big-endian 32-bit read at byte index `i` (as in `u32::from_be_bytes`). -/
def be32 (bytes : List Byte) (i : ℕ) : ℕ :=
  16777216 * (bytes.getD i 0).val + 65536 * (bytes.getD (i + 1) 0).val +
    256 * (bytes.getD (i + 2) 0).val + (bytes.getD (i + 3) 0).val

/-- Big-endian 64-bit read at byte index `i` (as in `u64::from_be_bytes`). -/
def be64 (bytes : List Byte) (i : ℕ) : ℕ :=
  (List.range 8).foldl (fun acc k => 256 * acc + (bytes.getD (i + k) 0).val) 0

/-! ### The name hash (src/name.rs, `hash_str`)

`hash_str` iterates over the Unicode scalar values of the string; we model a
string as its list of scalar values (`List ℕ`). -/

/-- One loop iteration of `hash_str`: `h = (h << 4) + c`, then the high-nibble
fold `g = h & 0xf0000000; if g != 0 { h ^= g >> 23 }; h &= !g`, all in u32. -/
def hashStep (h c : ℕ) : ℕ :=
  let h1 := (16 * h + c) % 4294967296
  let g := h1 &&& 0xf0000000
  let h2 := if g ≠ 0 then h1 ^^^ (g >>> 23) else h1
  h2 &&& (0xffffffff ^^^ g)

/-- The QHash-style name hash of src/name.rs, over the string's Unicode
scalar values. -/
def hash_str (cs : List ℕ) : ℕ := cs.foldl hashStep 0

/-! ### UTF-16 BE decoding (Rust `String::from_utf16`)

A list of u16 code units decodes to a list of Unicode scalar values; a
lone or misordered surrogate is a decode error. -/

/-- `String::from_utf16`: decodes UTF-16 code units to scalar values,
failing on lone surrogates. -/
def decodeUtf16 : List ℕ → Option (List ℕ)
  | [] => some []
  | [u] =>
    if u < 0xD800 ∨ 0xE000 ≤ u then some [u]
    else none
  | u :: lo :: rest =>
    if u < 0xD800 ∨ 0xE000 ≤ u then
      (decodeUtf16 (lo :: rest)).map (fun cs => u :: cs)
    else if u < 0xDC00 then
      if 0xDC00 ≤ lo ∧ lo < 0xE000 then
        (decodeUtf16 rest).map (fun cs =>
          (0x10000 + (u - 0xD800) * 1024 + (lo - 0xDC00)) :: cs)
      else none
    else none

/-- The number of UTF-16 code units needed to encode a list of Unicode
scalar values (scalars at or above 0x10000 take a surrogate pair). -/
def utf16Len (cs : List ℕ) : ℕ :=
  (cs.map (fun c => if 0x10000 ≤ c then 2 else 1)).sum

/-! ### Name-table parsing (src/name.rs, `parse_names`)

A name map is a list of (relative offset, decoded name) pairs; names are
lists of Unicode scalar values. `parse_names` walks successive
`[u16 size | u32 hash | 2*size bytes UTF-16 BE]` records. Reads past the
end of the byte array are slice panics in the source, modelled as `none`.

The loop is modelled with a fuel counter consumed once per record; each
record advances `offset` by at least 8, so the wrapper's fuel
`bytes.length + 1` can never run out before the loop guard
`offset < bytes.length` stops the walk (the fuel-0 branch is unreachable
from the wrapper). -/

/-- One name map: relative offset ↦ decoded name. -/
abbrev NameMap := List (ℕ × List ℕ)

/-- The `parse_names` loop. `start` is the fixed table start, `offset` the
read position, `endPos` the end of the last accepted record (the source's
`end` variable), `names` the accumulated map. -/
def parseNamesGo (bytes : List Byte) (start : ℕ) :
    ℕ → ℕ → ℕ → NameMap → Option ((ℕ × ℕ) × NameMap)
  | 0, _, _, _ => none
  | fuel + 1, offset, endPos, names =>
    -- the source's locals: size = be16 at offset, hash = be32 at offset+2,
    -- the UTF-16 units at offset+6 (written inline here)
    if offset < bytes.length then
      if bytes.length < offset + 2 then none
      else if be16 bytes offset = 0 then some ((start, endPos), names)
      else if bytes.length < offset + 6 then none
      else if bytes.length < offset + 6 + 2 * be16 bytes offset then none
      else
        match decodeUtf16 ((List.range (be16 bytes offset)).map
            (fun k => be16 bytes (offset + 6 + 2 * k))) with
        | none => some ((start, endPos), names)
        | some name =>
          if hash_str name ≠ be32 bytes (offset + 2) then
            some ((start, endPos), names)
          else
            parseNamesGo bytes start fuel (offset + 6 + 2 * be16 bytes offset)
              (offset + 6 + 2 * be16 bytes offset)
              (names ++ [(endPos - start, name)])
    else some ((start, endPos), names)

/-- `parse_names`: parses name entries starting at `offset`, yielding the
parsed range and the relative-offset ↦ name map (`none` models a slice
panic). -/
def parseNames (bytes : List Byte) (offset : ℕ) :
    Option ((ℕ × ℕ) × NameMap) :=
  parseNamesGo bytes offset (bytes.length + 1) offset offset []

/-! ### Name scanning (src/name.rs, `scan_ascii_names` / `scan_names`) -/

/-- The mutable state of the `scan_ascii_names` loop: the accumulated
ASCII string `s`, the current candidate string start `start`, and the set
of recorded candidate offsets. -/
structure ScanState where
  s : List ℕ
  start : ℕ
  found : Finset ℕ
deriving DecidableEq

/-- `char::is_ascii_graphic`. -/
def isAsciiGraphic (c : ℕ) : Bool := decide (0x21 ≤ c) && decide (c ≤ 0x7E)

/-- One iteration of the `scan_ascii_names` loop over the `i`-th byte pair
of `bytes[6..]`. Returns `none` where the source would panic (the
`start - 6` usize underflow for a string starting before any reset, or a
slice read past the end). -/
def scanStep (bytes : List Byte) (delta : ℕ) (st : ScanState) (i : ℕ) :
    Option ScanState :=
  let p0 := (bytes.getD (6 + 2 * i) 0).val
  let p1 := (bytes.getD (6 + 2 * i + 1) 0).val
  let offset := 2 * i + (delta + 6)
  if p0 = 0 ∧ isAsciiGraphic p1 then some { st with s := st.s ++ [p1] }
  else if st.s = [] then some { st with start := offset + 2 }
  else if st.start < 6 ∨ bytes.length < st.start - 6 + 2 then none
  else
    let size := be16 bytes (st.start - 6)
    if size = 0 ∨ st.s.length < size then some ⟨[], offset + 2, st.found⟩
    else if bytes.length < st.start then none
    else
      let sub := st.s.take size
      let hash := be32 bytes (st.start - 4)
      if hash_str sub = hash then
        some ⟨[], offset + 2, insert (st.start - 6) st.found⟩
      else some ⟨[], offset + 2, st.found⟩

/-- `scan_ascii_names` over the byte slice it is handed: below 6 bytes it
records nothing; otherwise it folds `scanStep` over the
`(len - 6) / 2` byte pairs of `bytes[6..]` and yields the set of recorded
candidate offsets (`none` models a panic). -/
def scanAscii (bytes : List Byte) (delta : ℕ) : Option (Finset ℕ) :=
  if bytes.length < 6 then some ∅
  else
    ((List.range ((bytes.length - 6) / 2)).foldl
        (fun acc i => acc.bind (fun st => scanStep bytes delta st i))
        (some ⟨[], 0, ∅⟩)).map ScanState.found

/-- `scan_names`: scans both parities (over `bytes[0..]` and `bytes[1..]`
— the latter slice panics on an empty array), then parses each candidate
offset in ascending order, skipping offsets already covered by a parsed
range and discarding empty parses. Yields the list of
(table start, (range, name map)) sections. -/
def scanNames (bytes : List Byte) :
    Option (List (ℕ × ((ℕ × ℕ) × NameMap))) :=
  match scanAscii bytes 0 with
  | none => none
  | some s0 =>
    if bytes.length < 1 then none
    else
      match scanAscii (bytes.drop 1) 1 with
      | none => none
      | some s1 =>
        (((s0 ∪ s1).sort (· ≤ ·)).foldl
            (fun acc o =>
              acc.bind (fun rs =>
                if rs.1.any (fun r => decide (r.1 ≤ o) && decide (o < r.2)) then
                  some rs
                else
                  match parseNames bytes o with
                  | none => none
                  | some (rg, names) =>
                    if rg.2 ≤ rg.1 then some rs
                    else some (rg :: rs.1, rs.2 ++ [(rg.1, (rg, names))])))
            (some ([], []))).map Prod.snd

/-- The 10-byte name table whose single entry is the surrogate pair
D800 DC00 (the astral character U+10000): size field 2, hash field
0x00010000. -/
def surrogateBytes : List Byte :=
  [0x00, 0x02, 0x00, 0x01, 0x00, 0x00, 0xD8, 0x00, 0xDC, 0x00]

/-! ### Range distance (src/main.rs, `distance`) -/

/-- A half-open `Range<usize>`; `stop` stands for the source's `end` field
(`end` is a keyword in Lean). -/
structure NRange where
  start : ℕ
  stop : ℕ
deriving DecidableEq

/-- The orchestrator's proximity metric between two ranges (src/main.rs). -/
def distance (lhs rhs : NRange) : ℕ :=
  if lhs.stop ≤ rhs.start then rhs.start - lhs.stop
  else if rhs.stop ≤ lhs.start then lhs.start - rhs.stop
  else 0

/-! ### Executable mapping (src/executable.rs)

The state of an `ExecutableMapping` after construction: the preferred image
base and the interval-keyed `rva_mapping` (each stored interval `[lo, hi)`
of virtual addresses with its file-offset base). `get_key_value` on the
rangemap is modelled as first-match lookup over the stored intervals. -/

/-- One stored interval of the `rva_mapping`: virtual addresses
`[lo, hi)` map to file offsets starting at `base`. -/
structure Segment where
  lo : ℕ
  hi : ℕ
  base : ℕ
deriving DecidableEq

/-- The constructed `ExecutableMapping` (image base plus VA→file intervals). -/
structure ExecMapping where
  imageBase : ℕ
  rvaMapping : List Segment
deriving DecidableEq

/-- `RangeMap::get_key_value`: the stored interval containing `x`, if any. -/
def lookupRva (segs : List Segment) (x : ℕ) : Option Segment :=
  segs.find? (fun s => decide (s.lo ≤ x) && decide (x < s.hi))

/-- `ExecutableMapping::rva_to_file_offset`: `let rva = rva - self.image_base`
(wrapping usize subtraction), look the adjusted address up in `rva_mapping`,
and return `rva + file_base - rva_range.start` (wrapping usize arithmetic). -/
def rva_to_file_offset (m : ExecMapping) (rva : ℕ) : Option ℕ :=
  let r := wsub64 rva m.imageBase
  match lookupRva m.rvaMapping r with
  | none => none
  | some s => some (wsub64 ((r + s.base) % W64) s.lo)

/-! ### Tree entries (src/tree.rs, `Entry` / `EntryData`)

A 22-byte big-endian record: u32 `name_offset`, u16 `flags`, an 8-byte
variant payload selected by bit 1 of `flags` (binrw reads the declared
fields in order: for `Directory` first `count`, then `node_id`; for `File`
first `locale`, then `data_offset`), and a u64 `_last_modified`. -/

/-- The `EntryData` variant payload. Constructor arguments follow the
declaration order of the Rust enum fields. -/
inductive EntryData
  | directory (count nodeId : ℕ)
  | file (locale dataOffset : ℕ)
deriving DecidableEq

/-- A parsed 22-byte tree `Entry`. -/
structure Entry where
  nameOffset : ℕ
  flags : ℕ
  data : EntryData
  lastModified : ℕ
deriving DecidableEq

/-- Reads the `i`-th 22-byte `Entry` of `bytes` (entry record at byte
`22*i`). Callers of this model only use it with the record in bounds, in
which case `Entry::read` of the source always succeeds (the cursor holds
exactly the sliced records and both enum variants parse unconditionally
once the `flags`-driven `pre_assert` selects one of them). -/
def readEntry (bytes : List Byte) (i : ℕ) : Entry :=
  let base := 22 * i
  { nameOffset := be32 bytes base
    flags := be16 bytes (base + 4)
    data :=
      if be16 bytes (base + 4) &&& 2 ≠ 0 then
        EntryData.directory (be32 bytes (base + 6)) (be32 bytes (base + 10))
      else
        EntryData.file (be32 bytes (base + 6)) (be32 bytes (base + 10))
    lastModified := be64 bytes (base + 14) }

/-! ### Tree validation (src/tree.rs, `parse_tree`)

`parse_tree` takes the set of valid name offsets, a mutable visited-id
`RangeSet`, the byte array, and a node id and count. We model the visited
set as a `Finset ℕ`, threaded through the computation (the source passes
`&mut`). The rangemap crate's `RangeSet::insert` asserts that the inserted
range is nonempty (it panics on `start >= end`), so a call that passes all
the length and disjointness guards with `count = 0` panics at the insert.

The recursion is not structural (it is bounded by the growth of the
visited set), so it is modelled with a fuel counter consumed once per
nested `parse_tree` call; `parseTreeF_no_timeout` proves that the fuel of
the `parse_tree` wrapper can never run out. -/

/-- Outcome of a `parse_tree` call: a normal return (the count and the
final visited set), a panic, or fuel exhaustion (a model artifact that the
wrapper never produces, see `parseTreeF_no_timeout`). -/
inductive PRes
  | timeout
  | panic
  | ret (k : ℕ) (vis : Finset ℕ)
deriving DecidableEq

/-- The entry loop of `parse_tree`: processes `r` remaining entries
starting at entry index `j` (entry `nodeId + j` of `bytes`), with
accumulated count `acc` and threaded visited set `vis`; `rec` performs the
recursive call for a directory entry. Entry reads always succeed here: the
guards of `parseTreeF` ensure the sliced records are in bounds. -/
def parseTreeGo (offs : Finset ℕ) (bytes : List Byte) (nodeId : ℕ)
    (rec : Finset ℕ → ℕ → ℕ → PRes) : ℕ → ℕ → ℕ → Finset ℕ → PRes
  | 0, _, acc, vis => .ret acc vis
  | r + 1, j, acc, vis =>
    if (readEntry bytes (nodeId + j)).nameOffset ∉ offs then .ret 0 vis
    else if 2 < (readEntry bytes (nodeId + j)).flags then .ret 0 vis
    else
      match (readEntry bytes (nodeId + j)).data with
      | .directory ccnt cid =>
        match rec vis cid ccnt with
        | .timeout => .timeout
        | .panic => .panic
        | .ret k vis' =>
          if k = 0 then .ret 0 vis'
          else parseTreeGo offs bytes nodeId rec r (j + 1) (acc + k + 1) vis'
      | .file _ _ => parseTreeGo offs bytes nodeId rec r (j + 1) (acc + 1) vis

/-- `parse_tree` with explicit fuel. The four guards, in source order:
the node id is in range, the count leaves a strictly positive terminator
margin, no id of `[node_id, node_id + count)` was already visited, and
(implicit in the source, via the rangemap insert assertion) the inserted
range is nonempty — a zero count panics here. -/
def parseTreeF (offs : Finset ℕ) : ℕ → Finset ℕ → List Byte → ℕ → ℕ → PRes
  | 0, _, _, _, _ => .timeout
  | fuel + 1, visited, bytes, nodeId, cnt =>
    if bytes.length / 22 ≤ nodeId then .ret 0 visited
    else if bytes.length / 22 - nodeId ≤ cnt then .ret 0 visited
    else if (Finset.Ico nodeId (nodeId + cnt) ∩ visited).Nonempty then .ret 0 visited
    else if cnt = 0 then .panic
    else
      parseTreeGo offs bytes nodeId
        (fun vis cid ccnt => parseTreeF offs fuel vis bytes cid ccnt)
        cnt 0 0 (visited ∪ Finset.Ico nodeId (nodeId + cnt))

/-- `parse_tree` (src/tree.rs): the fuel `bytes.length / 22 + 1` always
suffices, since every nested call strictly grows the visited set inside
`Finset.range (bytes.length / 22)`. -/
def parse_tree (offs visited : Finset ℕ) (bytes : List Byte)
    (nodeId cnt : ℕ) : PRes :=
  parseTreeF offs (bytes.length / 22 + 1) visited bytes nodeId cnt

/-- Modelled from claim C3's words (in the code's first-failure order,
with the visited set threaded through directory recursions as the
source's `&mut` set is): among the `r` remaining entries starting at
index `j`, some parsed entry has a name offset outside `offs` or flags
above 2, or some recursive directory parse returns 0. -/
def entriesRejectB (offs : Finset ℕ) (bytes : List Byte) (nodeId : ℕ) :
    ℕ → ℕ → Finset ℕ → Bool
  | 0, _, _ => false
  | r + 1, j, vis =>
    if (readEntry bytes (nodeId + j)).nameOffset ∉ offs then true
    else if 2 < (readEntry bytes (nodeId + j)).flags then true
    else
      match (readEntry bytes (nodeId + j)).data with
      | .directory ccnt cid =>
        match parse_tree offs vis bytes cid ccnt with
        | .ret 0 _ => true
        | .ret (_ + 1) vis' => entriesRejectB offs bytes nodeId r (j + 1) vis'
        | _ => false
      | .file _ _ => entriesRejectB offs bytes nodeId r (j + 1) vis

/-- Modelled from claim C3's words: the disjunction of the claimed failure
conditions of a `parse_tree` call — `bytes.len()/22 <= node_id`, or
`bytes.len()/22 - node_id <= count`, or some id of
`[node_id, node_id + count)` already visited, or some parsed entry bad, or
some recursive directory parse returning 0. -/
def specRejects (offs visited : Finset ℕ) (bytes : List Byte)
    (nodeId cnt : ℕ) : Bool :=
  decide (bytes.length / 22 ≤ nodeId) ||
    decide (bytes.length / 22 - nodeId ≤ cnt) ||
    decide ((Finset.Ico nodeId (nodeId + cnt) ∩ visited).Nonempty) ||
    entriesRejectB offs bytes nodeId cnt 0
      (visited ∪ Finset.Ico nodeId (nodeId + cnt))

/-! ### Tree candidate search (src/tree.rs, `find_tree_offsets`) -/

/-- `find_tree_offsets` (src/tree.rs): collects the name map's key set,
scans candidate offsets `0, 8, 16, ...` below `bytes.len()` in descending
order, parses each as a tree with a fresh visited set and
`(node_id = 0, count = 1)`, and accepts those whose valid-offset count
reaches the number of name offsets. A panic inside any `parse_tree` call
aborts the whole scan (`none`). -/
def findTreeOffsets (names : NameMap) (bytes : List Byte) : Option (Finset ℕ) :=
  (((List.range bytes.length).filter (fun o => o % 8 = 0)).reverse).foldl
    (fun acc o =>
      acc.bind (fun s =>
        match parse_tree (names.map Prod.fst).toFinset ∅ (bytes.drop o) 0 1 with
        | .ret k _ =>
          if (names.map Prod.fst).toFinset.card ≤ k then some (insert o s)
          else some s
        | _ => none))
    (some ∅)

/-- The acceptance test of one candidate offset in `find_tree_offsets`. -/
def treeAccept (names : NameMap) (bytes : List Byte) (o : ℕ) : Bool :=
  match parse_tree (names.map Prod.fst).toFinset ∅ (bytes.drop o) 0 1 with
  | .ret k _ => decide ((names.map Prod.fst).toFinset.card ≤ k)
  | _ => false

/-- 44 zero bytes: two all-zero tree entries (a file entry with name
offset 0 and flags 0, plus the terminator-margin record). -/
def zeroBytes44 : List Byte := List.replicate 44 0

/-- A 66-byte array whose entry 0 is a directory with name offset 0,
flags 2, child count 0 and child node id 1, followed by zero padding. -/
def dirZeroCount : List Byte :=
  [0, 0, 0, 0, 0, 2, 0, 0, 0, 0, 0, 0, 0, 1, 0, 0, 0, 0, 0, 0, 0, 0] ++
    List.replicate 44 0

/-! ### Data-offset collection (src/tree.rs, `collect_data_offsets`)

Unlike `parse_tree`, `collect_data_offsets` keeps no visited set: a
directory entry may point back into its own range and make the recursion
diverge (a stack overflow in the source). The model spends one unit of
fuel per nested call; on a terminating run no (node id, count) pair can
repeat along a path (repeating one would loop forever), so the nesting
depth is below `(bytes.length)^2` and the wrapper's fuel
`bytes.length * bytes.length + 1` exceeds the depth of every terminating
run; `none` models divergence. -/

/-- A `BTreeSet<usize>` modelled as a strictly ascending list: ordered,
duplicate-dropping insert. -/
def sortedInsert (x : ℕ) : List ℕ → List ℕ
  | [] => [x]
  | y :: ys =>
    if x < y then x :: y :: ys
    else if x = y then y :: ys
    else y :: sortedInsert x ys

/-- The entry loop of `collect_data_offsets` over `r` remaining entries
starting at index `j`: directory entries recurse through `rec` and insert
every collected offset, file entries record their data offset. -/
def collectGo (bytes : List Byte) (nodeId : ℕ)
    (rec : ℕ → ℕ → Option (List ℕ)) :
    ℕ → ℕ → List ℕ → Option (List ℕ)
  | 0, _, acc => some acc
  | r + 1, j, acc =>
    match (readEntry bytes (nodeId + j)).data with
    | .directory ccnt cid =>
      match rec cid ccnt with
      | none => none
      | some sub =>
        collectGo bytes nodeId rec r (j + 1)
          (sub.foldl (fun l x => sortedInsert x l) acc)
    | .file _ dOff =>
      collectGo bytes nodeId rec r (j + 1) (sortedInsert dOff acc)

/-- `collect_data_offsets` with explicit fuel: the same two length guards
as `parse_tree` (yielding the empty set), then the entry loop. -/
def collectF (bytes : List Byte) : ℕ → ℕ → ℕ → Option (List ℕ)
  | 0, _, _ => none
  | fuel + 1, nodeId, cnt =>
    if bytes.length / 22 ≤ nodeId then some []
    else if bytes.length / 22 - nodeId ≤ cnt then some []
    else collectGo bytes nodeId (fun cid ccnt => collectF bytes fuel cid ccnt)
      cnt 0 []

/-- `collect_data_offsets` (src/tree.rs): the ordered set of data offsets
of the file entries reachable from `(nodeId, cnt)`, as the ascending list
a `BTreeSet<usize>` iterates in. -/
def collect_data_offsets (bytes : List Byte) (nodeId cnt : ℕ) :
    Option (List ℕ) :=
  collectF bytes (bytes.length * bytes.length + 1) nodeId cnt

/-! ### Blob locator, strategy S1 (src/tree.rs, `find_blob_offsets`) -/

/-- The inner loop of the blob size-chain walk: for each remaining delta,
advance `offset` by `size + 4` (wrapping usize addition), read the next
u32 size there — a read past the end of `bytes` is a slice panic,
modelled as `none` — and compare it with the delta; `some false` is the
source's `found = false` early break. -/
def chainWalk (bytes : List Byte) : List ℕ → ℕ → ℕ → Option Bool
  | [], _, _ => some true
  | d :: ds, offset, size =>
    if bytes.length < (offset + size + 4) % W64 + 4 then none
    else if be32 bytes ((offset + size + 4) % W64) ≠ d then some false
    else chainWalk bytes ds ((offset + size + 4) % W64)
      (be32 bytes ((offset + size + 4) % W64))

/-- Outcome of `find_blob_offsets`: a normal return, a panic inside a
chain walk, or divergence of the data-offset collection. -/
inductive BRes
  | timeout
  | panic
  | ok (s : Finset ℕ)
deriving DecidableEq

/-- One window of the `find_blob_offsets` scan: if the u32 at `start`
matches the first delta, walk the chain of remaining deltas; a complete
chain records `start`, a mismatch rejects the window, a walk past the end
of `bytes` panics. -/
def blobStep (bytes : List Byte) (first : ℕ) (rest : List ℕ)
    (acc : BRes) (start : ℕ) : BRes :=
  match acc with
  | BRes.ok s =>
    if be32 bytes start ≠ first then BRes.ok s
    else
      match chainWalk bytes rest start (be32 bytes start) with
      | none => BRes.panic
      | some true => BRes.ok (insert start s)
      | some false => BRes.ok s
  | BRes.panic => BRes.panic
  | BRes.timeout => BRes.timeout

/-- `find_blob_offsets` (src/tree.rs): collects the data offsets of the
tree at `treeOffset`, forms the deltas `offs[i+1] - offs[i] - 4`
(wrapping usize subtraction), and scans every 4-byte window of `bytes`
whose big-endian u32 equals the first delta, walking the size chain to
check the remaining deltas. -/
def findBlobOffsets (treeOffset : ℕ) (bytes : List Byte) : BRes :=
  match collect_data_offsets (bytes.drop treeOffset) 0 1 with
  | none => .timeout
  | some offs =>
    match List.zipWith (fun a b => wsub64 (wsub64 b a) 4) offs (offs.drop 1) with
    | [] => .ok ∅
    | first :: rest =>
      (List.range (bytes.length - 3)).foldl (blobStep bytes first rest)
        (BRes.ok ∅)

/-- A 114-byte array: a tree at offset 0 (root directory with child
count 3 and child node id 1; children are file entries with data offsets
0, 10 and 20), followed by the bytes 00 00 00 06 — a window matching the
first delta 6 whose chain walk steps past the end of the array. -/
def blobChainBytes : List Byte :=
  [0, 0, 0, 0, 0, 2, 0, 0, 0, 3, 0, 0, 0, 1, 0, 0, 0, 0, 0, 0, 0, 0] ++
    [0, 0, 0, 0, 0, 0, 0, 0, 0, 0, 0, 0, 0, 0, 0, 0, 0, 0, 0, 0, 0, 0] ++
    [0, 0, 0, 0, 0, 0, 0, 0, 0, 0, 0, 0, 0, 10, 0, 0, 0, 0, 0, 0, 0, 0] ++
    [0, 0, 0, 0, 0, 0, 0, 0, 0, 0, 0, 0, 0, 20, 0, 0, 0, 0, 0, 0, 0, 0] ++
    List.replicate 22 0 ++ [0, 0, 0, 6]

/-- An 88-byte array: a tree at offset 0 (root directory with child
count 2 and child node id 1; children are file entries with data offsets
0 and 2 — consecutive collected offsets differing by less than 4). -/
def smallDeltaBytes : List Byte :=
  [0, 0, 0, 0, 0, 2, 0, 0, 0, 2, 0, 0, 0, 1, 0, 0, 0, 0, 0, 0, 0, 0] ++
    [0, 0, 0, 0, 0, 0, 0, 0, 0, 0, 0, 0, 0, 0, 0, 0, 0, 0, 0, 0, 0, 0] ++
    [0, 0, 0, 0, 0, 0, 0, 0, 0, 0, 0, 0, 0, 2, 0, 0, 0, 0, 0, 0, 0, 0] ++
    List.replicate 22 0

/-! ### Tree extraction (src/tree.rs, `extract_tree`)

`extract_tree` drives external collaborators — the filesystem
(`create_dir_all`, `fs::write`) and the zlib decompressor — which the
spec lists as interfaces only; they enter the model as oracle functions:
`cd` and `wr` succeed or fail per directory/file write, `zl` inflates a
deflate stream or fails. Paths are lists of name components. Like
`collect_data_offsets` the recursion has no cycle protection, so fuel
bounds it (`.timeout` models divergence); `.panic` models the source's
slice panics: a file entry whose `data_offset` exceeds the blob slice
(`&blobs[data_offset..]`), or a compressed blob whose payload is shorter
than the 4-byte uncompressed-size header (`&blob.bytes[4..]`). -/

/-- A filesystem effect performed by `extract_tree`. -/
inductive FsAct
  | mkdir (path : List (List ℕ))
  | fwrite (path : List (List ℕ)) (data : List Byte)
deriving DecidableEq

/-- Outcome of an `extract_tree` call: fuel exhaustion (model artifact
for the unprotected recursion), a panic, an error returned through `?`,
or success together with the performed filesystem effects. -/
inductive ERes
  | timeout
  | panic
  | err
  | ok (log : List FsAct)
deriving DecidableEq

/-- The entry loop of `extract_tree` over `r` remaining entries starting
at index `j`: resolve the entry's name in the map (silently skipping on a
miss), create and recurse for directories, and for files parse the blob
record at `data_offset` (skipping on a parse failure, including a zero
size), inflating first when flags bit 0 is set. -/
def extractGo (cd : List (List ℕ) → Bool) (wr : List (List ℕ) → List Byte → Bool)
    (zl : List Byte → Option (List Byte)) (names : NameMap)
    (blobs bytes : List Byte) (root : List (List ℕ)) (nodeId : ℕ)
    (rec : ℕ → ℕ → List (List ℕ) → ERes) : ℕ → ℕ → List FsAct → ERes
  | 0, _, log => .ok log
  | r + 1, j, log =>
    match names.find?
        (fun p => decide (p.1 = (readEntry bytes (nodeId + j)).nameOffset)) with
    | none => extractGo cd wr zl names blobs bytes root nodeId rec r (j + 1) log
    | some p =>
      match (readEntry bytes (nodeId + j)).data with
      | .directory ccnt cid =>
        if cd (root ++ [p.2]) then
          match rec cid ccnt (root ++ [p.2]) with
          | .ok sub =>
            extractGo cd wr zl names blobs bytes root nodeId rec r (j + 1)
              (log ++ FsAct.mkdir (root ++ [p.2]) :: sub)
          | .err => .err
          | .panic => .panic
          | .timeout => .timeout
        else .err
      | .file _ dOff =>
        if blobs.length < dOff then .panic
        else if blobs.length < dOff + 4 then
          extractGo cd wr zl names blobs bytes root nodeId rec r (j + 1) log
        else if be32 blobs dOff = 0 then
          extractGo cd wr zl names blobs bytes root nodeId rec r (j + 1) log
        else if blobs.length < dOff + 4 + be32 blobs dOff then
          extractGo cd wr zl names blobs bytes root nodeId rec r (j + 1) log
        else if (readEntry bytes (nodeId + j)).flags &&& 1 = 1 then
          if be32 blobs dOff < 4 then .panic
          else
            match zl (((blobs.drop (dOff + 4)).take (be32 blobs dOff)).drop 4) with
            | none => .err
            | some data =>
              if wr (root ++ [p.2]) data then
                extractGo cd wr zl names blobs bytes root nodeId rec r (j + 1)
                  (log ++ [FsAct.fwrite (root ++ [p.2]) data])
              else .err
        else
          if wr (root ++ [p.2]) ((blobs.drop (dOff + 4)).take (be32 blobs dOff)) then
            extractGo cd wr zl names blobs bytes root nodeId rec r (j + 1)
              (log ++ [FsAct.fwrite (root ++ [p.2])
                ((blobs.drop (dOff + 4)).take (be32 blobs dOff))])
          else .err

/-- `extract_tree` with explicit fuel: the same two length guards as
`parse_tree` (returning `Ok(())` without effects), then the entry loop. -/
def extractF (cd : List (List ℕ) → Bool) (wr : List (List ℕ) → List Byte → Bool)
    (zl : List Byte → Option (List Byte)) (names : NameMap)
    (blobs bytes : List Byte) : ℕ → List (List ℕ) → ℕ → ℕ → ERes
  | 0, _, _, _ => .timeout
  | fuel + 1, root, nodeId, cnt =>
    if bytes.length / 22 ≤ nodeId then .ok []
    else if bytes.length / 22 - nodeId ≤ cnt then .ok []
    else
      extractGo cd wr zl names blobs bytes root nodeId
        (fun cid ccnt path => extractF cd wr zl names blobs bytes fuel path cid ccnt)
        cnt 0 []

/-- `extract_tree` (src/tree.rs), with fuel exceeding the recursion depth
of every terminating run (as for `collect_data_offsets`). -/
def extract_tree (cd : List (List ℕ) → Bool)
    (wr : List (List ℕ) → List Byte → Bool)
    (zl : List Byte → Option (List Byte)) (root : List (List ℕ))
    (names : NameMap) (blobs bytes : List Byte) (nodeId cnt : ℕ) : ERes :=
  extractF cd wr zl names blobs bytes
    ((bytes.length + 1) * (bytes.length + 1)) root nodeId cnt

/-- A 44-byte array whose entry 0 is a file with name offset 0, flags 0
and data offset 1 — past the end of an empty blob slice. -/
def oobDataOffsetBytes : List Byte :=
  [0, 0, 0, 0, 0, 0, 0, 0, 0, 0, 0, 0, 0, 1, 0, 0, 0, 0, 0, 0, 0, 0] ++
    List.replicate 22 0

/-- A concrete 22-byte directory entry: flags = 2 (bit 1 set), the first
u32 of the variant payload (bytes 6..10) holds 5 and the second (bytes
10..14) holds 7. -/
def entryBytesA : List Byte :=
  [0, 0, 0, 0, 0, 2, 0, 0, 0, 5, 0, 0, 0, 7, 0, 0, 0, 0, 0, 0, 0, 0]

/-! ## Theorems -/

theorem be16_lt (bytes : List Byte) (i : ℕ) : be16 bytes i < 65536 := by
  have h0 := (bytes.getD i 0).isLt
  have h1 := (bytes.getD (i + 1) 0).isLt
  unfold be16; omega

theorem be32_lt (bytes : List Byte) (i : ℕ) : be32 bytes i < 4294967296 := by
  have h0 := (bytes.getD i 0).isLt
  have h1 := (bytes.getD (i + 1) 0).isLt
  have h2 := (bytes.getD (i + 2) 0).isLt
  have h3 := (bytes.getD (i + 3) 0).isLt
  unfold be32; omega

/-! ### Claim C1 (corrected)

The spec's scenario literals do not match the hash the source computes:
running `hash_str` (src/name.rs) on the scalar values of `"abc"` gives
0x6783, and on `"qt"` gives 0x784. Only the empty-string literal (0) is
right. -/

/-- Counterexample to claim C1: `hash_str("abc")` is not 0x29d3c and
`hash_str("qt")` is not 0x370 ([97, 98, 99] and [113, 116] are the Unicode
scalar values of `"abc"` and `"qt"`). -/
theorem hash_str_literals_refuted :
    hash_str [97, 98, 99] ≠ 0x29d3c ∧ hash_str [113, 116] ≠ 0x370 := by
  exact ⟨by decide, by decide⟩

/-- Claim C1 as amended: the literal values `hash_str` actually takes on the
spec's three scenario strings: `hash_str("abc") = 0x6783`,
`hash_str("") = 0`, and `hash_str("qt") = 0x784`. -/
theorem hash_str_literals :
    hash_str [97, 98, 99] = 0x6783 ∧ hash_str [] = 0 ∧
      hash_str [113, 116] = 0x784 := by
  exact ⟨by decide, by decide, by decide⟩

/-! ### Claim C9 (corrected)

The proximity metric: the max-formula and the gap characterisation hold for
well-formed ranges, and symmetry holds, but `distance a b = 0` does not
imply the ranges share a position: adjacent ranges (`a.stop = b.start`)
also have distance 0. Moreover, for a degenerate range with
`start > stop` the max-formula fails outright. -/

/-- Counterexample to claim C9: the ranges [3,5) and [5,7) have distance 0
but share no position (their position sets are {3,4} and {5,6}: they share
a position iff `max start < min stop`); and for the degenerate range
⟨100,0⟩ against ⟨0,10⟩ the code's distance is 0 while the claimed formula
`max(0, a.start − b.stop, b.start − a.stop)` gives 90. -/
theorem distance_claim_refuted :
    distance ⟨3, 5⟩ ⟨5, 7⟩ = 0 ∧ ¬ (max 3 5 < min 5 7) ∧
      distance ⟨100, 0⟩ ⟨0, 10⟩ = 0 ∧
      max (0 : ℤ) (max ((100 : ℤ) - 10) ((0 : ℤ) - 0)) = 90 := by
  refine ⟨by decide, by decide, by decide, by decide⟩

/-- Claim C9 as amended: for well-formed half-open ranges
(`start ≤ stop`), `distance` equals `max(0, a.start − b.stop,
b.start − a.stop)` over ℤ, is symmetric, is zero iff the ranges are
adjacent or overlapping (`a.start ≤ b.stop ∧ b.start ≤ a.stop`), and when
the ranges are separated it equals the gap between them. -/
theorem distance_spec (a b : NRange) (ha : a.start ≤ a.stop)
    (hb : b.start ≤ b.stop) :
    ((distance a b : ℤ) =
        max 0 (max ((a.start : ℤ) - b.stop) ((b.start : ℤ) - a.stop))) ∧
      distance a b = distance b a ∧
      (distance a b = 0 ↔ a.start ≤ b.stop ∧ b.start ≤ a.stop) ∧
      (b.stop ≤ a.start → distance a b = a.start - b.stop) ∧
      (a.stop ≤ b.start → distance a b = b.start - a.stop) := by
  unfold distance
  rcases a with ⟨as, ae⟩
  rcases b with ⟨bs, be⟩
  simp only at *
  refine ⟨?_, ?_, ?_, ?_, ?_⟩
  · split_ifs <;> push_cast <;> omega
  · split_ifs <;> omega
  · split_ifs <;> omega
  · intro h; split_ifs <;> omega
  · intro h; split_ifs <;> omega

theorem decodeUtf16_utf16Len :
    ∀ (n : ℕ) (us : List ℕ), us.length ≤ n → ∀ cs, (∀ u ∈ us, u < 65536) →
      decodeUtf16 us = some cs → utf16Len cs = us.length := by
  intro n
  induction n with
  | zero =>
    intro us hlen cs hb hd
    match us with
    | [] => simp only [decodeUtf16, Option.some.injEq] at hd; subst hd; rfl
  | succ n ih =>
    intro us hlen cs hb hd
    match us with
    | [] => simp only [decodeUtf16, Option.some.injEq] at hd; subst hd; rfl
    | [u] =>
      simp only [decodeUtf16] at hd
      split at hd
      · simp only [Option.some.injEq] at hd
        subst hd
        have hu : u < 65536 := hb u (by simp)
        simp only [utf16Len, List.map, List.sum_cons, List.sum_nil]
        rw [if_neg (by omega)]
        simp
      · exact absurd hd (by simp)
    | u :: lo :: rest =>
      simp only [decodeUtf16] at hd
      split at hd
      · rcases Option.map_eq_some'.mp hd with ⟨cs', hcs', rfl⟩
        have hu : u < 65536 := hb u (by simp)
        have := ih (lo :: rest) (by simp at hlen ⊢; omega) cs'
          (fun v hv => hb v (by simp [hv])) hcs'
        simp only [utf16Len, List.map, List.sum_cons] at this ⊢
        rw [if_neg (by omega)]
        simp only [List.length_cons] at *
        omega
      · split at hd
        · split at hd
          · rcases Option.map_eq_some'.mp hd with ⟨cs', hcs', rfl⟩
            have := ih rest (by simp at hlen ⊢; omega) cs'
              (fun v hv => hb v (by simp [hv])) hcs'
            simp only [utf16Len, List.map, List.sum_cons] at this ⊢
            rw [if_pos (by omega)]
            simp only [List.length_cons] at *
            omega
          · exact absurd hd (by simp)
        · exact absurd hd (by simp)

theorem parseNamesGo_invariant (bytes : List Byte) (start : ℕ) :
    ∀ (fuel offset endPos : ℕ) (acc : NameMap) (rg : ℕ × ℕ) (names : NameMap),
      offset = endPos → start ≤ offset →
      (∀ p ∈ acc, be32 bytes (start + p.1 + 2) = hash_str p.2 ∧
        be16 bytes (start + p.1) = utf16Len p.2) →
      parseNamesGo bytes start fuel offset endPos acc = some (rg, names) →
      ∀ p ∈ names, be32 bytes (start + p.1 + 2) = hash_str p.2 ∧
        be16 bytes (start + p.1) = utf16Len p.2 := by
  intro fuel
  induction fuel with
  | zero => intro offset endPos acc rg names _ _ _ hp; exact absurd hp (by simp [parseNamesGo])
  | succ fuel ih =>
    intro offset endPos acc rg names heq hle hacc hp
    rw [parseNamesGo] at hp
    split at hp
    case isFalse =>
      simp only [Option.some.injEq, Prod.mk.injEq] at hp
      rcases hp with ⟨-, rfl⟩
      exact hacc
    case isTrue hoff =>
      split at hp
      case isTrue => exact absurd hp (by simp)
      case isFalse h2 =>
        split at hp
        case isTrue => simp only [Option.some.injEq, Prod.mk.injEq] at hp; rcases hp with ⟨-, rfl⟩; exact hacc
        case isFalse hsz =>
          split at hp
          case isTrue => exact absurd hp (by simp)
          case isFalse h3 =>
            split at hp
            case isTrue => exact absurd hp (by simp)
            case isFalse h4 =>
              split at hp
              case h_1 =>
                simp only [Option.some.injEq, Prod.mk.injEq] at hp
                rcases hp with ⟨-, rfl⟩
                exact hacc
              case h_2 name hdec =>
                split at hp
                case isTrue =>
                  simp only [Option.some.injEq, Prod.mk.injEq] at hp
                  rcases hp with ⟨-, rfl⟩
                  exact hacc
                case isFalse hh =>
                  refine ih (offset + 6 + 2 * be16 bytes offset)
                    (offset + 6 + 2 * be16 bytes offset)
                    (acc ++ [(endPos - start, name)]) rg names rfl (by omega) ?_ hp
                  intro p hpmem
                  rcases List.mem_append.mp hpmem with hmem | hmem
                  · exact hacc p hmem
                  · have hpval : p = (endPos - start, name) := by
                      simpa using hmem
                    subst hpval
                    have hsum : start + (endPos - start) = offset := by omega
                    have hhash : hash_str name = be32 bytes (offset + 2) := by
                      by_contra hne
                      exact hh hne
                    constructor
                    · simp only [hsum]
                      exact hhash.symm
                    · simp only [hsum]
                      have hlen : utf16Len name =
                          ((List.range (be16 bytes offset)).map
                            (fun k => be16 bytes (offset + 6 + 2 * k))).length := by
                        refine decodeUtf16_utf16Len _ _ le_rfl name ?_ hdec
                        intro u hu
                        rcases List.mem_map.mp hu with ⟨k, -, rfl⟩
                        exact be16_lt bytes _
                      rw [hlen]
                      simp

/-! ### Claim C5 (corrected)

Every pair yielded by `parse_names` satisfies the stored-hash equation,
and the stored u16 size equals the number of UTF-16 CODE UNITS of the
name — not the number of code points: a name containing an astral
character (a surrogate pair in the table) has fewer code points than its
stored size. -/

/-- Counterexample to claim C5: parsing the valid table `surrogateBytes`
yields the single pair (0, [U+10000]); the name has 1 code point but the
stored u16 size at relative offset 0 is 2. -/
theorem parse_names_codepoints_refuted :
    parseNames surrogateBytes 0 = some ((0, 10), [(0, [65536])]) ∧
      be16 surrogateBytes 0 = 2 ∧ ([65536] : List ℕ).length = 1 ∧ (2 : ℕ) ≠ 1 :=
  ⟨by decide, by decide, by decide, by decide⟩

/-- Claim C5 as amended: for every byte array and offset, every pair
(relative_offset, name) in the map returned by `parse_names` satisfies:
the u32 stored big-endian at `table_start + relative_offset + 2` equals
`hash_str name`, and the u16 stored big-endian at
`table_start + relative_offset` equals the number of UTF-16 CODE UNITS of
`name` (code points, counting astral code points twice). -/
theorem parse_names_hash_size (bytes : List Byte) (offset : ℕ)
    (rg : ℕ × ℕ) (names : NameMap) (rel : ℕ) (name : List ℕ)
    (hp : parseNames bytes offset = some (rg, names))
    (hmem : (rel, name) ∈ names) :
    be32 bytes (offset + rel + 2) = hash_str name ∧
      be16 bytes (offset + rel) = utf16Len name :=
  parseNamesGo_invariant bytes offset (bytes.length + 1) offset offset []
    rg names rfl le_rfl (by simp) hp (rel, name) hmem

/-- Witness for `parse_names_hash_size` at the one-entry ASCII table
`[00 01 | 00 00 00 61 | 00 61]` (the name `"a"`). -/
theorem parse_names_hash_size_witness :
    parseNames [0, 1, 0, 0, 0, 97, 0, 97] 0 = some ((0, 8), [(0, [97])]) ∧
      (be32 [0, 1, 0, 0, 0, 97, 0, 97] (0 + 0 + 2) = hash_str [97] ∧
        be16 [0, 1, 0, 0, 0, 97, 0, 97] (0 + 0) = utf16Len [97]) :=
  ⟨by decide,
    parse_names_hash_size [0, 1, 0, 0, 0, 97, 0, 97] 0 (0, 8) [(0, [97])] 0 [97]
      (by decide) (by simp)⟩

/-! ### Claim C8 (corrected)

For inputs of length 1 to 5 the name scanner indeed returns an empty map
without failing; but on the EMPTY byte array the expression
`&bytes[1..]` in `scan_names` is a slice-bound panic, so the scanner does
not return at all. -/

/-- Counterexample to claim C8: on the empty byte array `scan_names`
panics (slicing `bytes[1..]` of a length-0 slice) instead of returning an
empty map. -/
theorem scan_names_empty_input_refuted : scanNames ([] : List Byte) = none := rfl

/-- Claim C8 as amended: for every input byte array of length at least 1
and smaller than 6, the name scanner returns an empty map and does not
fail; for the empty array it panics on the `bytes[1..]` slice. -/
theorem scan_names_short_input (bytes : List Byte) (h1 : 1 ≤ bytes.length)
    (h6 : bytes.length < 6) : scanNames bytes = some [] := by
  have hd : (bytes.drop 1).length < 6 := by
    simp only [List.length_drop]
    omega
  have e0 : scanAscii bytes 0 = some ∅ := by unfold scanAscii; rw [if_pos h6]
  have e1 : scanAscii (bytes.drop 1) 1 = some ∅ := by
    unfold scanAscii; rw [if_pos hd]
  have h1' : ¬ bytes.length < 1 := by omega
  unfold scanNames
  rw [e0, e1]
  simp [h1']

/-- Witness for `scan_names_short_input` at the one-byte input `[0]`. -/
theorem scan_names_short_input_witness :
    1 ≤ ([0] : List Byte).length ∧ ([0] : List Byte).length < 6 ∧
      scanNames [0] = some [] :=
  ⟨by decide, by decide, scan_names_short_input [0] (by decide) (by decide)⟩

/-! ### Claim C2 (corrected)

The binrw-derived `EntryData::Directory` reads its declared fields in
order: `count` first, `node_id` second. So for a directory entry the FIRST
u32 of the variant payload (entry bytes 6..10, big-endian) is the child
count and the SECOND (bytes 10..14) is the child node id — the opposite of
the claim. -/

/-- Counterexample to claim C2: on the entry `entryBytesA` (payload words 5
then 7) the claim predicts child node id 5 and child count 7, i.e.
`EntryData.directory 7 5` (constructor arguments are count, node id); the
parser actually yields `EntryData.directory 5 7` (count 5, node id 7). -/
theorem entry_directory_claim_refuted :
    (readEntry entryBytesA 0).data = EntryData.directory 5 7 ∧
      EntryData.directory 5 7 ≠ EntryData.directory 7 5 :=
  ⟨by decide, by decide⟩

/-- Claim C2 as amended: for every 22-byte tree entry whose flags have bit
1 set, parsing yields the child COUNT from the first u32 of the variant
payload (entry bytes 6..10, big-endian) and the child NODE ID from the
second u32 (entry bytes 10..14, big-endian). -/
theorem entry_directory_fields (bytes : List Byte) (h : bytes.length = 22)
    (hd : be16 bytes 4 &&& 2 ≠ 0) :
    (readEntry bytes 0).data =
      EntryData.directory (be32 bytes 6) (be32 bytes 10) := by
  simp [readEntry, hd]

/-- Witness for `entry_directory_fields` at the concrete entry
`entryBytesA`. -/
theorem entry_directory_fields_witness :
    entryBytesA.length = 22 ∧ be16 entryBytesA 4 &&& 2 ≠ 0 ∧
      (readEntry entryBytesA 0).data =
        EntryData.directory (be32 entryBytesA 6) (be32 entryBytesA 10) :=
  ⟨by decide, by decide, entry_directory_fields entryBytesA (by decide) (by decide)⟩

/-! ### Claim C7 (corrected)

`rva_to_file_offset` computes `rva - self.image_base` with wrapping usize
subtraction. For `rva ≥ image_base` the claim's description is accurate
(modulo the final arithmetic also being wrapping); but for
`rva < image_base` the wrapped difference is looked up instead of the
lookup failing, so the function can return `Some` where the claim requires
`None`. -/

/-- Counterexample to claim C7: with image base `W64 - 1` (a PE image base
of `u64::MAX`) and a single VA interval [0,16) with file base 0x400, the
input `rva = 0` is smaller than the image base — mathematically
`rva - image_base` is negative, contained in no interval, so the claim
requires `None` — yet the wrapped difference is 1, which IS contained, and
the lookup returns `Some 0x401`. -/
theorem rva_to_file_offset_claim_refuted :
    rva_to_file_offset ⟨W64 - 1, [⟨0, 16, 0x400⟩]⟩ 0 = some 0x401 ∧
      (0 : ℕ) < W64 - 1 :=
  ⟨by decide, by decide⟩

/-- Claim C7 as amended: the lookup never panics under wrapping (release)
semantics, but the subtraction of the image base wraps modulo 2^64. For
`image_base ≤ rva < 2^64` the claim's description holds: the result is
`None` exactly when no stored interval contains `rva - image_base`, and
otherwise it is `rva - image_base - va_base + file_base` (modulo 2^64).
For `rva < image_base` the wrapped value is looked up instead, which can
produce a `Some`. -/
theorem rva_to_file_offset_spec (m : ExecMapping) (rva : ℕ)
    (h1 : rva < W64) (h2 : m.imageBase < W64) (h3 : m.imageBase ≤ rva) :
    (rva_to_file_offset m rva = none ↔
        lookupRva m.rvaMapping (rva - m.imageBase) = none) ∧
      ∀ s, lookupRva m.rvaMapping (rva - m.imageBase) = some s →
        rva_to_file_offset m rva =
          some ((rva - m.imageBase - s.lo + s.base) % W64) := by
  have hW : W64 = 18446744073709551616 := rfl
  have hr : wsub64 rva m.imageBase = rva - m.imageBase := by
    unfold wsub64
    simp only [hW] at h1 h2 ⊢
    omega
  constructor
  · unfold rva_to_file_offset
    rw [hr]
    cases hfind : lookupRva m.rvaMapping (rva - m.imageBase) <;> simp [hfind]
  · intro s hs
    have hpred := List.find?_some hs
    simp only [Bool.and_eq_true, decide_eq_true_eq] at hpred
    have hgoal : wsub64 ((rva - m.imageBase + s.base) % W64) s.lo =
        (rva - m.imageBase - s.lo + s.base) % W64 := by
      have hlo : s.lo ≤ rva - m.imageBase := hpred.1
      unfold wsub64
      simp only [hW] at h1 h2 hlo ⊢
      omega
    unfold rva_to_file_offset
    simp only [hr, hs, hgoal]

/-- Witness for `rva_to_file_offset_spec` at a concrete mapping with image
base 0x1000, one interval [0x100,0x200) with file base 0x4000, and
`rva = 0x1150`. -/
theorem rva_to_file_offset_spec_witness :
    (0x1150 : ℕ) < W64 ∧ (0x1000 : ℕ) < W64 ∧ (0x1000 : ℕ) ≤ 0x1150 ∧
      rva_to_file_offset ⟨0x1000, [⟨0x100, 0x200, 0x4000⟩]⟩ 0x1150 =
        some ((0x1150 - 0x1000 - 0x100 + 0x4000) % W64) :=
  ⟨by decide, by decide, by decide,
    (rva_to_file_offset_spec ⟨0x1000, [⟨0x100, 0x200, 0x4000⟩]⟩ 0x1150
          (by decide) (by decide) (by decide)).2
      ⟨0x100, 0x200, 0x4000⟩ (by decide)⟩

/-! ### Helper lemmas about `parseTreeF` -/

theorem parseTreeGo_mono (offs : Finset ℕ) (bytes : List Byte) (nodeId : ℕ)
    (rec : Finset ℕ → ℕ → ℕ → PRes)
    (hrec : ∀ vis cid ccnt k vis', rec vis cid ccnt = .ret k vis' → vis ⊆ vis') :
    ∀ (r j acc : ℕ) (vis : Finset ℕ) (k : ℕ) (vis' : Finset ℕ),
      parseTreeGo offs bytes nodeId rec r j acc vis = .ret k vis' →
      vis ⊆ vis' := by
  intro r
  induction r with
  | zero =>
    intro j acc vis k vis' h
    simp only [parseTreeGo, PRes.ret.injEq] at h
    exact h.2 ▸ Finset.Subset.refl _
  | succ r ih =>
    intro j acc vis k vis' h
    rw [parseTreeGo] at h
    split at h
    · simp only [PRes.ret.injEq] at h
      exact h.2 ▸ Finset.Subset.refl _
    · split at h
      · simp only [PRes.ret.injEq] at h
        exact h.2 ▸ Finset.Subset.refl _
      · split at h
        case h_1 ccnt cid hdata =>
          split at h
          · exact absurd h (by simp)
          · exact absurd h (by simp)
          next k0 vis0 hcall =>
            have hsub : vis ⊆ vis0 := hrec vis cid ccnt k0 vis0 hcall
            split at h
            · simp only [PRes.ret.injEq] at h
              exact h.2 ▸ hsub
            · exact hsub.trans (ih (j + 1) (acc + k0 + 1) vis0 k vis' h)
        case h_2 locale dOff hdata =>
          exact ih (j + 1) (acc + 1) vis k vis' h

theorem parseTreeF_mono (offs : Finset ℕ) :
    ∀ (fuel : ℕ) (visited : Finset ℕ) (bytes : List Byte)
      (nodeId cnt k : ℕ) (vis' : Finset ℕ),
      parseTreeF offs fuel visited bytes nodeId cnt = .ret k vis' →
      visited ⊆ vis' := by
  intro fuel
  induction fuel with
  | zero =>
    intro visited bytes nodeId cnt k vis' h
    exact absurd h (by simp [parseTreeF])
  | succ fuel ih =>
    intro visited bytes nodeId cnt k vis' h
    rw [parseTreeF] at h
    split at h
    · simp only [PRes.ret.injEq] at h; exact h.2 ▸ Finset.Subset.refl _
    · split at h
      · simp only [PRes.ret.injEq] at h; exact h.2 ▸ Finset.Subset.refl _
      · split at h
        · simp only [PRes.ret.injEq] at h; exact h.2 ▸ Finset.Subset.refl _
        · split at h
          · exact absurd h (by simp)
          · exact Finset.subset_union_left.trans
              (parseTreeGo_mono offs bytes nodeId _
                (fun vis cid ccnt k v hcall => ih vis bytes cid ccnt k v hcall)
                cnt 0 0 _ k vis' h)

theorem visited_card_step (visited : Finset ℕ) (n nodeId cnt : ℕ)
    (h1 : ¬ n ≤ nodeId) (h2 : ¬ n - nodeId ≤ cnt)
    (h3 : ¬ (Finset.Ico nodeId (nodeId + cnt) ∩ visited).Nonempty) :
    ((visited ∪ Finset.Ico nodeId (nodeId + cnt)) ∩ Finset.range n).card =
      (visited ∩ Finset.range n).card + cnt := by
  have hsub : Finset.Ico nodeId (nodeId + cnt) ⊆ Finset.range n := by
    rw [Finset.range_eq_Ico]
    exact Finset.Ico_subset_Ico (Nat.zero_le _) (by omega)
  have hdisj : Disjoint (visited ∩ Finset.range n)
      (Finset.Ico nodeId (nodeId + cnt)) := by
    rw [Finset.not_nonempty_iff_eq_empty] at h3
    rw [Finset.disjoint_left]
    intro a ha hb
    have hmem : a ∈ Finset.Ico nodeId (nodeId + cnt) ∩ visited :=
      Finset.mem_inter.mpr ⟨hb, (Finset.mem_inter.mp ha).1⟩
    rw [h3] at hmem
    exact absurd hmem (Finset.not_mem_empty a)
  rw [Finset.union_inter_distrib_right, Finset.inter_eq_left.mpr hsub,
    Finset.card_union_of_disjoint hdisj, Nat.card_Ico]
  omega

theorem parseTreeGo_no_timeout (offs : Finset ℕ) (bytes : List Byte) (nodeId : ℕ)
    (rec : Finset ℕ → ℕ → ℕ → PRes) (vis1 : Finset ℕ)
    (hrec : ∀ vis cid ccnt, vis1 ⊆ vis → rec vis cid ccnt ≠ .timeout)
    (hmono : ∀ vis cid ccnt k vis', rec vis cid ccnt = .ret k vis' → vis ⊆ vis') :
    ∀ (r j acc : ℕ) (vis : Finset ℕ), vis1 ⊆ vis →
      parseTreeGo offs bytes nodeId rec r j acc vis ≠ .timeout := by
  intro r
  induction r with
  | zero => intro j acc vis hv; simp [parseTreeGo]
  | succ r ih =>
    intro j acc vis hv
    rw [parseTreeGo]
    split
    · simp
    · split
      · simp
      · split
        case h_1 ccnt cid hdata =>
          split
          next hcall => exact absurd hcall (hrec vis cid ccnt hv)
          next hcall => simp
          next k0 vis0 hcall =>
            split
            · simp
            · exact ih (j + 1) (acc + k0 + 1) vis0
                (hv.trans (hmono vis cid ccnt k0 vis0 hcall))
        case h_2 locale dOff hdata =>
          exact ih (j + 1) (acc + 1) vis hv

theorem parseTreeF_no_timeout (offs : Finset ℕ) :
    ∀ (fuel : ℕ) (visited : Finset ℕ) (bytes : List Byte) (nodeId cnt : ℕ),
      bytes.length / 22 -
          (visited ∩ Finset.range (bytes.length / 22)).card < fuel →
      parseTreeF offs fuel visited bytes nodeId cnt ≠ .timeout := by
  intro fuel
  induction fuel with
  | zero => intro visited bytes nodeId cnt hb; exact absurd hb (by omega)
  | succ fuel ih =>
    intro visited bytes nodeId cnt hb
    rw [parseTreeF]
    split
    · simp
    · split
      · simp
      · split
        · simp
        · split
          · simp
          next h1 h2 h3 h4 =>
            refine parseTreeGo_no_timeout offs bytes nodeId _
              (visited ∪ Finset.Ico nodeId (nodeId + cnt)) ?_ ?_
              cnt 0 0 _ (Finset.Subset.refl _)
            · intro vis cid ccnt hvsub
              apply ih
              have hcard := visited_card_step visited (bytes.length / 22)
                nodeId cnt h1 h2 h3
              have hle : ((visited ∪ Finset.Ico nodeId (nodeId + cnt)) ∩
                    Finset.range (bytes.length / 22)).card ≤
                  (vis ∩ Finset.range (bytes.length / 22)).card :=
                Finset.card_le_card
                  (Finset.inter_subset_inter hvsub (Finset.Subset.refl _))
              have hEn : ((visited ∪ Finset.Ico nodeId (nodeId + cnt)) ∩
                    Finset.range (bytes.length / 22)).card ≤ bytes.length / 22 := by
                calc ((visited ∪ Finset.Ico nodeId (nodeId + cnt)) ∩
                      Finset.range (bytes.length / 22)).card
                    ≤ (Finset.range (bytes.length / 22)).card :=
                      Finset.card_le_card Finset.inter_subset_right
                  _ = bytes.length / 22 := Finset.card_range _
              omega
            · intro vis cid ccnt k vis' hcall
              exact parseTreeF_mono offs fuel vis bytes cid ccnt k vis' hcall

theorem parseTreeGo_congr (offs : Finset ℕ) (bytes : List Byte) (nodeId : ℕ)
    (rec1 rec2 : Finset ℕ → ℕ → ℕ → PRes) (vis1 : Finset ℕ)
    (hrec : ∀ vis cid ccnt, vis1 ⊆ vis → rec1 vis cid ccnt = rec2 vis cid ccnt)
    (hmono : ∀ vis cid ccnt k vis', rec1 vis cid ccnt = .ret k vis' → vis ⊆ vis') :
    ∀ (r j acc : ℕ) (vis : Finset ℕ), vis1 ⊆ vis →
      parseTreeGo offs bytes nodeId rec1 r j acc vis =
        parseTreeGo offs bytes nodeId rec2 r j acc vis := by
  intro r
  induction r with
  | zero => intro j acc vis hv; rfl
  | succ r ih =>
    intro j acc vis hv
    rw [parseTreeGo, parseTreeGo]
    by_cases hn : (readEntry bytes (nodeId + j)).nameOffset ∉ offs
    · simp only [if_pos hn]
    · simp only [if_neg hn]
      by_cases hf : 2 < (readEntry bytes (nodeId + j)).flags
      · simp only [if_pos hf]
      · simp only [if_neg hf]
        cases hdata : (readEntry bytes (nodeId + j)).data with
        | directory ccnt cid =>
          simp only [hdata]
          rw [hrec vis cid ccnt hv]
          cases hcall2 : rec2 vis cid ccnt with
          | timeout => rfl
          | panic => rfl
          | ret k0 vis0 =>
            by_cases hk : k0 = 0
            · simp only [if_pos hk]
            · simp only [if_neg hk]
              exact ih (j + 1) (acc + k0 + 1) vis0
                (hv.trans (hmono vis cid ccnt k0 vis0
                  ((hrec vis cid ccnt hv).trans hcall2)))
        | file locale dOff =>
          simp only [hdata]
          exact ih (j + 1) (acc + 1) vis hv

theorem parseTreeF_fuel_indep (offs : Finset ℕ) :
    ∀ (N f1 f2 : ℕ) (visited : Finset ℕ) (bytes : List Byte) (nodeId cnt : ℕ),
      f1 + f2 ≤ N →
      bytes.length / 22 -
          (visited ∩ Finset.range (bytes.length / 22)).card < f1 →
      bytes.length / 22 -
          (visited ∩ Finset.range (bytes.length / 22)).card < f2 →
      parseTreeF offs f1 visited bytes nodeId cnt =
        parseTreeF offs f2 visited bytes nodeId cnt := by
  intro N
  induction N with
  | zero => intro f1 f2 visited bytes nodeId cnt hN hb1 hb2; omega
  | succ N ihN =>
    intro f1 f2 visited bytes nodeId cnt hN hb1 hb2
    cases f1 with
    | zero => exact absurd hb1 (by omega)
    | succ g1 =>
      cases f2 with
      | zero => exact absurd hb2 (by omega)
      | succ g2 =>
        rw [parseTreeF, parseTreeF]
        by_cases c1 : bytes.length / 22 ≤ nodeId
        · simp only [if_pos c1]
        · simp only [if_neg c1]
          by_cases c2 : bytes.length / 22 - nodeId ≤ cnt
          · simp only [if_pos c2]
          · simp only [if_neg c2]
            by_cases c3 : (Finset.Ico nodeId (nodeId + cnt) ∩ visited).Nonempty
            · simp only [if_pos c3]
            · simp only [if_neg c3]
              by_cases c4 : cnt = 0
              · simp only [if_pos c4]
              · simp only [if_neg c4]
                refine parseTreeGo_congr offs bytes nodeId _ _
                  (visited ∪ Finset.Ico nodeId (nodeId + cnt)) ?_ ?_
                  cnt 0 0 _ (Finset.Subset.refl _)
                · intro vis cid ccnt hvsub
                  have hcard := visited_card_step visited (bytes.length / 22)
                    nodeId cnt c1 c2 c3
                  have hle : ((visited ∪ Finset.Ico nodeId (nodeId + cnt)) ∩
                        Finset.range (bytes.length / 22)).card ≤
                      (vis ∩ Finset.range (bytes.length / 22)).card :=
                    Finset.card_le_card
                      (Finset.inter_subset_inter hvsub (Finset.Subset.refl _))
                  have hEn : ((visited ∪ Finset.Ico nodeId (nodeId + cnt)) ∩
                        Finset.range (bytes.length / 22)).card ≤
                      bytes.length / 22 := by
                    calc ((visited ∪ Finset.Ico nodeId (nodeId + cnt)) ∩
                          Finset.range (bytes.length / 22)).card
                        ≤ (Finset.range (bytes.length / 22)).card :=
                          Finset.card_le_card Finset.inter_subset_right
                      _ = bytes.length / 22 := Finset.card_range _
                  exact ihN g1 g2 vis bytes cid ccnt (by omega) (by omega)
                    (by omega)
                · intro vis cid ccnt k vis' hcall
                  exact parseTreeF_mono offs g1 vis bytes cid ccnt k vis' hcall

theorem parse_tree_fuel (offs : Finset ℕ) (f : ℕ) (visited : Finset ℕ)
    (bytes : List Byte) (nodeId cnt : ℕ)
    (hf : bytes.length / 22 -
        (visited ∩ Finset.range (bytes.length / 22)).card < f) :
    parseTreeF offs f visited bytes nodeId cnt =
      parse_tree offs visited bytes nodeId cnt := by
  unfold parse_tree
  refine parseTreeF_fuel_indep offs (f + (bytes.length / 22 + 1)) f
    (bytes.length / 22 + 1) visited bytes nodeId cnt le_rfl hf ?_
  have hsb := Nat.sub_le (bytes.length / 22)
    ((visited ∩ Finset.range (bytes.length / 22)).card)
  omega

theorem parse_tree_no_timeout (offs visited : Finset ℕ) (bytes : List Byte)
    (nodeId cnt : ℕ) : parse_tree offs visited bytes nodeId cnt ≠ .timeout := by
  apply parseTreeF_no_timeout
  have hsb := Nat.sub_le (bytes.length / 22)
    ((visited ∩ Finset.range (bytes.length / 22)).card)
  omega

theorem parse_tree_mono (offs visited : Finset ℕ) (bytes : List Byte)
    (nodeId cnt k : ℕ) (vis' : Finset ℕ)
    (h : parse_tree offs visited bytes nodeId cnt = .ret k vis') :
    visited ⊆ vis' :=
  parseTreeF_mono offs _ visited bytes nodeId cnt k vis' h

theorem parseTreeGo_zero_iff (offs : Finset ℕ) (bytes : List Byte) (nodeId : ℕ)
    (rec : Finset ℕ → ℕ → ℕ → PRes) (vis1 : Finset ℕ)
    (hrec : ∀ vis cid ccnt, vis1 ⊆ vis →
      rec vis cid ccnt = parse_tree offs vis bytes cid ccnt) :
    ∀ (r j acc : ℕ) (vis : Finset ℕ) (k : ℕ) (vis2 : Finset ℕ),
      vis1 ⊆ vis → 1 ≤ acc + r →
      parseTreeGo offs bytes nodeId rec r j acc vis = .ret k vis2 →
      (k = 0 ↔ entriesRejectB offs bytes nodeId r j vis = true) := by
  intro r
  induction r with
  | zero =>
    intro j acc vis k vis2 hv hacc h
    simp only [parseTreeGo, PRes.ret.injEq] at h
    simp only [entriesRejectB]
    constructor
    · intro hk
      exact absurd (h.1.trans hk) (by omega)
    · intro hfalse
      exact absurd hfalse (by simp)
  | succ r ih =>
    intro j acc vis k vis2 hv hacc h
    rw [parseTreeGo] at h
    rw [entriesRejectB]
    split at h
    next hname =>
      simp only [PRes.ret.injEq] at h
      rw [if_pos hname]
      simp [← h.1]
    next hname =>
      rw [if_neg hname]
      split at h
      next hflags =>
        simp only [PRes.ret.injEq] at h
        rw [if_pos hflags]
        simp [← h.1]
      next hflags =>
        rw [if_neg hflags]
        split at h
        case h_1 ccnt cid hdata =>
          rw [hrec vis cid ccnt hv] at h
          cases hpt : parse_tree offs vis bytes cid ccnt with
          | timeout => rw [hpt] at h; simp at h
          | panic => rw [hpt] at h; simp at h
          | ret k0 vis0 =>
            rw [hpt] at h
            cases k0 with
            | zero =>
              simp at h
              obtain ⟨hk, hvv⟩ := h
              subst hk
              simp [hpt]
            | succ k0 =>
              simp at h
              have hv0 : vis1 ⊆ vis0 :=
                hv.trans (parse_tree_mono offs vis bytes cid ccnt (k0 + 1)
                  vis0 hpt)
              have hiff := ih (j + 1) (acc + (k0 + 1) + 1) vis0 k vis2 hv0
                (by omega) h
              simpa [hpt] using hiff
        case h_2 locale dOff hdata =>
          exact ih (j + 1) (acc + 1) vis k vis2 hv (by omega) h

theorem parseTreeF_zero_iff (offs : Finset ℕ) (fuel : ℕ) (visited : Finset ℕ)
    (bytes : List Byte) (nodeId cnt k : ℕ) (vis' : Finset ℕ)
    (hb : bytes.length / 22 -
        (visited ∩ Finset.range (bytes.length / 22)).card < fuel)
    (h : parseTreeF offs fuel visited bytes nodeId cnt = .ret k vis') :
    (k = 0 ↔ specRejects offs visited bytes nodeId cnt = true) := by
  cases fuel with
  | zero => exact absurd hb (by omega)
  | succ fuel =>
    rw [parseTreeF] at h
    unfold specRejects
    split at h
    next c1 =>
      simp only [PRes.ret.injEq] at h
      simp [← h.1, c1]
    next c1 =>
      split at h
      next c2 =>
        simp only [PRes.ret.injEq] at h
        simp [← h.1, c1, c2]
      next c2 =>
        split at h
        next c3 =>
          simp only [PRes.ret.injEq] at h
          simp [← h.1, c1, c2, c3]
        next c3 =>
          split at h
          next c4 => exact absurd h (by simp)
          next c4 =>
            have hgo := parseTreeGo_zero_iff offs bytes nodeId _
              (visited ∪ Finset.Ico nodeId (nodeId + cnt)) ?_ cnt 0 0 _ k vis'
              (Finset.Subset.refl _) (by omega) h
            · simpa [c1, c2, c3] using hgo
            · intro vis cid ccnt hvsub
              refine parse_tree_fuel offs fuel vis bytes cid ccnt ?_
              have hcard := visited_card_step visited (bytes.length / 22)
                nodeId cnt c1 c2 c3
              have hle : ((visited ∪ Finset.Ico nodeId (nodeId + cnt)) ∩
                    Finset.range (bytes.length / 22)).card ≤
                  (vis ∩ Finset.range (bytes.length / 22)).card :=
                Finset.card_le_card
                  (Finset.inter_subset_inter hvsub (Finset.Subset.refl _))
              have hEn : ((visited ∪ Finset.Ico nodeId (nodeId + cnt)) ∩
                    Finset.range (bytes.length / 22)).card ≤
                  bytes.length / 22 := by
                calc ((visited ∪ Finset.Ico nodeId (nodeId + cnt)) ∩
                      Finset.range (bytes.length / 22)).card
                    ≤ (Finset.range (bytes.length / 22)).card :=
                      Finset.card_le_card Finset.inter_subset_right
                  _ = bytes.length / 22 := Finset.card_range _
              omega

/-! ### Claim C3 (corrected)

The rejection conditions of the claim characterise a zero return, and a
positive count is returned when none of them holds — but only on the
calls that RETURN: a call whose guards pass with `count = 0` (reachable
at top level, or through a directory entry whose count field is 0) does
not return at all: it panics at the empty `RangeSet::insert`. -/

/-- Counterexample to claim C3: on 44 zero bytes with `node_id = 0` and
`count = 0`, none of the claim's failure conditions holds
(`specRejects = false`: the length checks pass with margin 2 and nothing
is visited or parsed), yet `parse_tree` does not return a nonzero count —
it panics on inserting the empty range `0..0` into the visited rangemap
set. -/
theorem parse_tree_claim_refuted :
    parse_tree ∅ ∅ zeroBytes44 0 0 = PRes.panic ∧
      specRejects ∅ ∅ zeroBytes44 0 0 = false :=
  ⟨by decide, by decide⟩

/-- Claim C3 as amended: whenever `parse_tree` RETURNS (no zero-count
panic is reached), it returns 0 exactly when one of the claim's failure
conditions holds — `bytes.len()/22 <= node_id`, or
`bytes.len()/22 - node_id <= count`, or an id of
`[node_id, node_id+count)` already visited, or a parsed entry with a name
offset outside the table or flags above 2, or a recursive directory parse
returning 0 — and returns a nonzero count when none of them holds. -/
theorem parse_tree_zero_iff (offs visited : Finset ℕ) (bytes : List Byte)
    (nodeId cnt k : ℕ) (vis' : Finset ℕ)
    (h : parse_tree offs visited bytes nodeId cnt = .ret k vis') :
    (k = 0 ↔ specRejects offs visited bytes nodeId cnt = true) := by
  refine parseTreeF_zero_iff offs (bytes.length / 22 + 1) visited bytes
    nodeId cnt k vis' ?_ h
  have hsb := Nat.sub_le (bytes.length / 22)
    ((visited ∩ Finset.range (bytes.length / 22)).card)
  omega

/-- Witness for `parse_tree_zero_iff`: on 44 zero bytes with the name
offset set {0}, the root call returns count 1, and the iff instance holds
with both sides false. -/
theorem parse_tree_zero_iff_witness :
    parse_tree {0} ∅ zeroBytes44 0 1 = PRes.ret 1 {0} ∧
      ((1 : ℕ) = 0 ↔ specRejects {0} ∅ zeroBytes44 0 1 = true) :=
  ⟨by decide, parse_tree_zero_iff {0} ∅ zeroBytes44 0 1 1 {0} (by decide)⟩

theorem findTree_foldl_none (names : NameMap) (bytes : List Byte) :
    ∀ (l : List ℕ),
      l.foldl (fun acc o => acc.bind (fun t =>
        match parse_tree (names.map Prod.fst).toFinset ∅ (bytes.drop o) 0 1 with
        | .ret k _ =>
          if (names.map Prod.fst).toFinset.card ≤ k then some (insert o t)
          else some t
        | _ => none)) (none : Option (Finset ℕ)) = none := by
  intro l
  induction l with
  | nil => rfl
  | cons a l ih => simpa using ih

theorem findTree_foldl_mem (names : NameMap) (bytes : List Byte) :
    ∀ (l : List ℕ) (s0 s : Finset ℕ),
      l.foldl (fun acc o => acc.bind (fun t =>
        match parse_tree (names.map Prod.fst).toFinset ∅ (bytes.drop o) 0 1 with
        | .ret k _ =>
          if (names.map Prod.fst).toFinset.card ≤ k then some (insert o t)
          else some t
        | _ => none)) (some s0) = some s →
      ∀ o, o ∈ s ↔ o ∈ s0 ∨ (o ∈ l ∧ treeAccept names bytes o = true) := by
  intro l
  induction l with
  | nil =>
    intro s0 s h o
    simp only [List.foldl_nil, Option.some.injEq] at h
    subst h
    simp
  | cons a l ih =>
    intro s0 s h o
    rw [List.foldl_cons] at h
    simp only [Option.some_bind] at h
    cases hpt : parse_tree (names.map Prod.fst).toFinset ∅ (bytes.drop a) 0 1 with
    | timeout =>
      rw [hpt] at h
      simp only [] at h
      rw [findTree_foldl_none names bytes l] at h
      exact absurd h (by simp)
    | panic =>
      rw [hpt] at h
      simp only [] at h
      rw [findTree_foldl_none names bytes l] at h
      exact absurd h (by simp)
    | ret k0 vis0 =>
      rw [hpt] at h
      simp only [] at h
      have haccA : treeAccept names bytes a =
          decide ((names.map Prod.fst).toFinset.card ≤ k0) := by
        unfold treeAccept
        rw [hpt]
      by_cases hk : (names.map Prod.fst).toFinset.card ≤ k0
      · rw [if_pos hk] at h
        have hmem := ih (insert a s0) s h o
        rw [hmem]
        have haT : treeAccept names bytes a = true := by
          rw [haccA]; exact decide_eq_true hk
        by_cases ho : o = a
        · subst ho
          simp [haT]
        · simp [Finset.mem_insert, ho]
      · rw [if_neg hk] at h
        have hmem := ih s0 s h o
        rw [hmem]
        have haF : treeAccept names bytes a = false := by
          rw [haccA]; exact decide_eq_false hk
        by_cases ho : o = a
        · subst ho
          simp [haF]
        · simp [ho]

/-! ### Claim C4 (corrected)

When the candidate scan completes, a scanned candidate (a multiple of 8
below the length) is accepted iff the root `parse_tree` call returns a
count at least the number of name offsets. But the scan need not
complete: a candidate whose root entry is a directory with a zero child
count makes `parse_tree` panic, in which case there is no returned set at
all. -/

/-- Counterexample to claim C4: on the 66-byte array `dirZeroCount` with
the one-name map {0 ↦ "a"}, the candidate at offset 0 parses a directory
entry with child count 0, whose recursive `parse_tree` call panics on the
empty visited-range insert — `find_tree_offsets` aborts and returns no
set, so there is no returned set for the claimed acceptance criterion to
describe. -/
theorem find_tree_offsets_claim_refuted :
    findTreeOffsets [(0, [97])] dirZeroCount = none := by decide

/-- Claim C4 as amended: whenever the tree candidate search completes
(returns a set), a candidate offset (a multiple of 8 below the byte
length) is in the returned set if and only if `parse_tree` called at that
offset with a fresh visited set and (node_id = 0, count = 1) returns a
count greater than or equal to the number of name offsets in the table. -/
theorem find_tree_offsets_mem (names : NameMap) (bytes : List Byte)
    (s : Finset ℕ) (hs : findTreeOffsets names bytes = some s) (o : ℕ)
    (ho8 : o % 8 = 0) (holt : o < bytes.length) :
    o ∈ s ↔ ∃ k vis',
      parse_tree (names.map Prod.fst).toFinset ∅ (bytes.drop o) 0 1 =
        .ret k vis' ∧ (names.map Prod.fst).toFinset.card ≤ k := by
  unfold findTreeOffsets at hs
  have hmem := findTree_foldl_mem names bytes _ ∅ s hs o
  rw [hmem]
  have hol : o ∈ ((List.range bytes.length).filter (fun o => o % 8 = 0)).reverse := by
    rw [List.mem_reverse, List.mem_filter, List.mem_range]
    exact ⟨holt, by simpa using ho8⟩
  simp only [Finset.not_mem_empty, false_or, hol, true_and]
  unfold treeAccept
  cases hpt : parse_tree (names.map Prod.fst).toFinset ∅ (bytes.drop o) 0 1 with
  | timeout => simp
  | panic => simp
  | ret k0 vis0 =>
    simp only [decide_eq_true_eq]
    constructor
    · intro hk
      exact ⟨k0, vis0, rfl, hk⟩
    · rintro ⟨k, vis', heq, hk⟩
      injection heq with h1 h2
      subst h1
      exact hk

/-- Witness for `find_tree_offsets_mem`: on 44 zero bytes with name map
{0 ↦ "a"}, the search returns {0}, and candidate 0 is accepted exactly
because its root parse returns count 1 ≥ 1. -/
theorem find_tree_offsets_mem_witness :
    findTreeOffsets [(0, [97])] zeroBytes44 = some {0} ∧ 0 % 8 = 0 ∧
      0 < zeroBytes44.length ∧
      (0 ∈ ({0} : Finset ℕ) ↔ ∃ k vis',
        parse_tree (([((0 : ℕ), [(97 : ℕ)])].map Prod.fst).toFinset) ∅
            (zeroBytes44.drop 0) 0 1 = .ret k vis' ∧
          (([((0 : ℕ), [(97 : ℕ)])].map Prod.fst).toFinset).card ≤ k) :=
  ⟨by decide, by decide, by decide,
    find_tree_offsets_mem [(0, [97])] zeroBytes44 {0} (by decide) 0
      (by decide) (by decide)⟩

theorem blobFold_ok (bytes : List Byte) (first : ℕ) (rest : List ℕ)
    (hne : ∀ start, be32 bytes start ≠ first) :
    ∀ (l : List ℕ),
      l.foldl (blobStep bytes first rest) (BRes.ok ∅) = BRes.ok ∅ := by
  intro l
  induction l with
  | nil => rfl
  | cons a l ih =>
    rw [List.foldl_cons]
    have hstep : blobStep bytes first rest (BRes.ok ∅) a = BRes.ok ∅ := by
      simp [blobStep, hne a]
    rw [hstep]
    exact ih

/-! ### Claim C6 (corrected)

Slice-out-of-bounds during the size-chain walk is NOT caught: a matching
window whose chain steps past the end of the byte array makes
`find_blob_offsets` panic instead of merely rejecting the candidate.
Consecutive data offsets differing by less than 4, on the other hand, do
make the function return normally under wrapping (release) semantics:
the wrapped first delta exceeds every 32-bit size, so no window ever
matches (in a debug build this subtraction would panic instead). -/

/-- Counterexample to claim C6: on `blobChainBytes` the collected data
offsets are {0, 10, 20} (deltas [6, 6]); the window at offset 110 reads
size 6, matching the first delta, and the chain walk then reads 4 bytes
at offset 120 — past the 114-byte end — so `find_blob_offsets` panics
rather than returning a (possibly empty) set. -/
theorem find_blob_offsets_claim_refuted :
    findBlobOffsets 0 blobChainBytes = BRes.panic := by decide

/-- Claim C6 as amended: when the first two collected data offsets differ
by less than 4, the wrapping delta computation makes the first delta at
least 2^64 - 3, no 4-byte window can match it, and `find_blob_offsets`
returns the empty set — the candidate chain is never walked, so no
out-of-bounds read occurs (a chain that does step past the end of the
byte array panics instead, as `find_blob_offsets_claim_refuted` shows). -/
theorem find_blob_offsets_small_first_delta (treeOffset : ℕ)
    (bytes : List Byte) (a b : ℕ) (rest : List ℕ)
    (hc : collect_data_offsets (bytes.drop treeOffset) 0 1 =
      some (a :: b :: rest))
    (hab : a < b) (hb : b < W64) (hlt : b < a + 4) :
    findBlobOffsets treeOffset bytes = BRes.ok ∅ := by
  have hW : W64 = 18446744073709551616 := rfl
  have hbig : 4294967296 ≤ wsub64 (wsub64 b a) 4 := by
    have hba : wsub64 b a = b - a := by
      unfold wsub64
      simp only [hW] at *
      omega
    rw [hba]
    unfold wsub64
    simp only [hW] at *
    omega
  unfold findBlobOffsets
  rw [hc]
  show (List.range (bytes.length - 3)).foldl
      (blobStep bytes (wsub64 (wsub64 b a) 4)
        (List.zipWith (fun x y => wsub64 (wsub64 y x) 4) (b :: rest) rest))
      (BRes.ok ∅) = BRes.ok ∅
  exact blobFold_ok bytes (wsub64 (wsub64 b a) 4) _
    (fun start => by have hlt32 := be32_lt bytes start; omega) _

/-- Witness for `find_blob_offsets_small_first_delta` on
`smallDeltaBytes`, whose collected data offsets are [0, 2]. -/
theorem find_blob_offsets_small_first_delta_witness :
    collect_data_offsets (smallDeltaBytes.drop 0) 0 1 =
        some (0 :: 2 :: []) ∧
      (0 : ℕ) < 2 ∧ (2 : ℕ) < W64 ∧ (2 : ℕ) < 0 + 4 ∧
      findBlobOffsets 0 smallDeltaBytes = BRes.ok ∅ :=
  ⟨by decide, by decide, by decide, by decide,
    find_blob_offsets_small_first_delta 0 smallDeltaBytes 0 2 []
      (by decide) (by decide) (by decide) (by decide)⟩

theorem extractGo_no_err (cd : List (List ℕ) → Bool)
    (wr : List (List ℕ) → List Byte → Bool) (zl : List Byte → Option (List Byte))
    (names : NameMap) (blobs bytes : List Byte) (root : List (List ℕ))
    (nodeId : ℕ) (rec : ℕ → ℕ → List (List ℕ) → ERes)
    (hcd : ∀ p, cd p = true) (hwr : ∀ p d, wr p d = true)
    (hzl : ∀ b, (zl b).isSome)
    (hrec : ∀ cid ccnt path, rec cid ccnt path ≠ .err) :
    ∀ (r j : ℕ) (log : List FsAct),
      extractGo cd wr zl names blobs bytes root nodeId rec r j log ≠ .err := by
  intro r
  induction r with
  | zero => intro j log; simp [extractGo]
  | succ r ih =>
    intro j log
    rw [extractGo]
    split
    · exact ih (j + 1) log
    next p hfind =>
      split
      case h_1 ccnt cid hdata =>
        rw [if_pos (hcd (root ++ [p.2]))]
        cases hr : rec cid ccnt (root ++ [p.2]) with
        | ok sub => exact ih (j + 1) _
        | err => exact absurd hr (hrec cid ccnt _)
        | panic => simp
        | timeout => simp
      case h_2 locale dOff hdata =>
        split
        · simp
        · split
          · exact ih _ _
          · split
            · exact ih _ _
            · split
              · exact ih _ _
              · split
                · split
                  · simp
                  · split
                    next hz =>
                      have hs := hzl
                        (((blobs.drop (dOff + 4)).take (be32 blobs dOff)).drop 4)
                      rw [hz] at hs
                      simp at hs
                    next data hz =>
                      rw [if_pos (hwr _ _)]
                      exact ih _ _
                · rw [if_pos (hwr _ _)]
                  exact ih _ _

theorem extractF_no_err (cd : List (List ℕ) → Bool)
    (wr : List (List ℕ) → List Byte → Bool) (zl : List Byte → Option (List Byte))
    (names : NameMap) (blobs bytes : List Byte)
    (hcd : ∀ p, cd p = true) (hwr : ∀ p d, wr p d = true)
    (hzl : ∀ b, (zl b).isSome) :
    ∀ (fuel : ℕ) (root : List (List ℕ)) (nodeId cnt : ℕ),
      extractF cd wr zl names blobs bytes fuel root nodeId cnt ≠ .err := by
  intro fuel
  induction fuel with
  | zero => intro root nodeId cnt; simp [extractF]
  | succ fuel ih =>
    intro root nodeId cnt
    rw [extractF]
    split
    · simp
    · split
      · simp
      · exact extractGo_no_err cd wr zl names blobs bytes root nodeId _
          hcd hwr hzl (fun cid ccnt path => ih path cid ccnt) cnt 0 []

/-! ### Claim C10 (corrected)

Entries whose name offset is missing from the name map, or whose blob
record fails to parse (including a zero size), are skipped without error,
and apart from panics the only error sources are directory creation,
decompression and file writing — extraction can report success while
entries were silently skipped. But the claim's if-and-only-if does not
hold as stated: a file entry whose `data_offset` exceeds the blob slice
makes `extract_tree` panic at `&blobs[data_offset..]` instead of skipping
or erroring (as does a compressed blob with payload shorter than 4
bytes at `&blob.bytes[4..]`). -/

/-- Counterexample to claim C10: with an empty blob slice, a name map
containing offset 0, and a tree whose entry 0 is a file with
`data_offset = 1`, extraction neither skips the entry nor returns a
result: it panics slicing `blobs[1..]` on a length-0 slice, although no
directory creation, decompression or write ever failed. -/
theorem extract_tree_claim_refuted :
    extract_tree (fun _ => true) (fun _ _ => true) some [] [(0, [97])] []
      oobDataOffsetBytes 0 1 = ERes.panic := by decide

/-- Claim C10 as amended: (1) when directory creation, decompression and
file writes always succeed, `extract_tree` never returns an error
(errors can only arise from those three operations — skipped entries
never produce one), though it can still panic on an out-of-range
`data_offset` or a short compressed payload; and (2) extraction can
report overall success while a file entry was silently skipped: with an
empty name map, a tree containing a file entry extracts to `Ok` with no
filesystem effects. -/
theorem extract_tree_error_sources :
    (∀ (cd : List (List ℕ) → Bool) (wr : List (List ℕ) → List Byte → Bool)
        (zl : List Byte → Option (List Byte)) (root : List (List ℕ))
        (names : NameMap) (blobs bytes : List Byte) (nodeId cnt : ℕ),
        (∀ p, cd p = true) → (∀ p d, wr p d = true) → (∀ b, (zl b).isSome) →
        extract_tree cd wr zl root names blobs bytes nodeId cnt ≠ ERes.err) ∧
      extract_tree (fun _ => true) (fun _ _ => true) some [] [] []
        zeroBytes44 0 1 = ERes.ok [] := by
  constructor
  · intro cd wr zl root names blobs bytes nodeId cnt hcd hwr hzl
    exact extractF_no_err cd wr zl names blobs bytes hcd hwr hzl _ root
      nodeId cnt
  · decide

/-- Witness for `extract_tree_error_sources`: its first conjunct applied
to always-succeeding oracles at a concrete extraction. -/
theorem extract_tree_error_sources_witness :
    extract_tree (fun _ => true) (fun _ _ => true) some [] [(0, [97])] []
      oobDataOffsetBytes 0 1 ≠ ERes.err :=
  extract_tree_error_sources.1 (fun _ => true) (fun _ _ => true) some []
    [(0, [97])] [] oobDataOffsetBytes 0 1 (fun p => rfl) (fun p d => rfl)
    (fun b => rfl)

/-- Witness for `distance_spec` at the separated ranges [0,1) and [4,6). -/
theorem distance_spec_witness :
    (0 : ℕ) ≤ 1 ∧ (4 : ℕ) ≤ 6 ∧
      (((distance ⟨0, 1⟩ ⟨4, 6⟩ : ℕ) : ℤ) =
          max 0 (max ((0 : ℤ) - 6) ((4 : ℤ) - 1)) ∧
        distance ⟨0, 1⟩ ⟨4, 6⟩ = distance ⟨4, 6⟩ ⟨0, 1⟩ ∧
        (distance ⟨0, 1⟩ ⟨4, 6⟩ = 0 ↔ (0 : ℕ) ≤ 6 ∧ (4 : ℕ) ≤ 1) ∧
        ((6 : ℕ) ≤ 0 → distance ⟨0, 1⟩ ⟨4, 6⟩ = 0 - 6) ∧
        ((1 : ℕ) ≤ 4 → distance ⟨0, 1⟩ ⟨4, 6⟩ = 4 - 1)) :=
  ⟨by decide, by decide, distance_spec ⟨0, 1⟩ ⟨4, 6⟩ (by decide) (by decide)⟩

end QtrcExtract
